import Mathlib

/-!
# Verification of the REFramework release-repackaging core

This development embeds the core logic of the repository (release fetching
with ETag caching, nightly-version resolution, zip-to-zip transcoding with
substring filtering, and idempotent artifact delivery) as executable Lean
definitions, and proves the specification's testable properties about them.

The embedding follows the Go sources: `transcodeZip`, the release/`numMap`
resolution block in `main`, the ETag-conditional fetch block, `atomicCopy`
and `copyFile`.  Machine strings are modelled as Lean `String`s; substring
tests and prefix tests are expressed on the underlying character lists,
matching Go's `strings.Contains` / `strings.HasPrefix`.  Timestamps
(`time.Time` compared with `After`) are modelled as integers compared with
`<`.
-/

namespace REFramework

/-! Section: String primitives

Go's `strings.Contains(s, pat)` is a substring test.  We model it by a
direct scan over the character list, and prove it equivalent to
`List.IsInfix`. -/

/-- Substring scan: does `pat` occur (contiguously) inside `s`?
Models Go `strings.Contains s pat` at the character level. -/
def hasSubstr (pat : List Char) : List Char → Bool
  | [] => pat.isEmpty
  | c :: t => pat.isPrefixOf (c :: t) || hasSubstr pat t

/-- Go `strings.Contains name pat` on Lean strings. -/
def containsStr (s pat : String) : Bool :=
  hasSubstr pat.data s.data

/-- Go `strings.HasPrefix s pre` on Lean strings. -/
def strHasPrefix (s pre : String) : Bool :=
  pre.data.isPrefixOf s.data

theorem hasSubstr_iff_isInfix (pat s : List Char) :
    hasSubstr pat s = true ↔ pat <:+: s := by
  induction s with
  | nil =>
    simp [hasSubstr, List.isEmpty_iff]
  | cons c t ih =>
    simp [hasSubstr, List.infix_cons_iff, ih, List.isPrefixOf_iff_prefix]

/-! Section: The archive transcoder (`transcodeZip`)

An archive entry carries a stored path, a modification timestamp, a
compression method and its (decompressed) bytes.  The transcoder writes an
explicit root directory entry first, then copies every surviving source
entry in stored order, renamed under the root prefix, normalised to the
deflate method, timestamp preserved, bytes verbatim.  An entry survives iff
its stored path contains none of the filter rules as a substring. -/

structure Entry where
  name : String
  modified : Int
  method : Nat
  data : List Nat
  deriving DecidableEq

/-- Compression method constants of the zip container. -/
def zipStore : Nat := 0

def zipDeflate : Nat := 8

/-- The skip test of `transcodeZip`: `for _, p := range filters
\x7b if strings.Contains(f.Name, p) \x7b skip = true \x7d \x7d`. -/
def matchesFilters (filters : List String) (name : String) : Bool :=
  filters.any (fun p => containsStr name p)

/-- The rewritten destination entry:
`zip.FileHeader\x7bName: rootPrefix + f.Name, Method: zip.Deflate, Modified: f.Modified\x7d`
with the bytes copied verbatim. -/
def rewriteEntry (rootPrefix : String) (f : Entry) : Entry :=
  { name := rootPrefix ++ f.name, modified := f.modified,
    method := zipDeflate, data := f.data }

/-- The loop of `transcodeZip` over the source entries, in stored order:
skip (`continue`) on a filter match, otherwise emit the rewritten entry. -/
def transcodeEntries (rootPrefix : String) (filters : List String) :
    List Entry → List Entry
  | [] => []
  | f :: rest =>
    if matchesFilters filters f.name then
      transcodeEntries rootPrefix filters rest
    else
      rewriteEntry rootPrefix f :: transcodeEntries rootPrefix filters rest

/-- The explicit root directory entry written first
(`dWriter.Create("MHWILDS/")`; a directory entry has no bytes and the
default store method). -/
def rootDirEntry (rootPrefix : String) : Entry :=
  { name := rootPrefix, modified := 0, method := zipStore, data := [] }

/-- The function `transcodeZip` (success path): the output archive's entry list.
The source fixes `rootPrefix := "MHWILDS/"`; the prefix is a parameter here
so that the spec's quantification over root prefixes can be stated. -/
def transcodeZip (rootPrefix : String) (filters : List String)
    (src : List Entry) : List Entry :=
  rootDirEntry rootPrefix :: transcodeEntries rootPrefix filters src

/-- The filter rule set fixed by the program. -/
def mhFilters : List String :=
  ["RE", "vr", "xr", "VR", "XR", "DELETE", "OpenVR", "OpenXR"]

/-- The root prefix fixed by the program. -/
def mhRoot : String := "MHWILDS/"

example :
    (transcodeZip "OUT/" ["vr"]
      [⟨"README.txt", 3, 8, [1]⟩, ⟨"vr_runtime.dll", 4, 8, [2]⟩,
       ⟨"core.dll", 5, 8, [3]⟩]).map Entry.name
    = ["OUT/", "OUT/README.txt", "OUT/core.dll"] := by decide

/-! Section: Structure of the transcode output -/

theorem transcodeEntries_eq_filter_map (rootPrefix : String)
    (filters : List String) (src : List Entry) :
    transcodeEntries rootPrefix filters src
      = (src.filter (fun f => !matchesFilters filters f.name)).map
          (rewriteEntry rootPrefix) := by
  induction src with
  | nil => rfl
  | cons f rest ih =>
    by_cases h : matchesFilters filters f.name
    · simp [transcodeEntries, List.filter_cons, h, ih]
    · simp [transcodeEntries, List.filter_cons, h, ih]

theorem length_filter_not_add (p : Entry → Bool) (l : List Entry) :
    (l.filter (fun f => !p f)).length + (l.filter p).length = l.length := by
  induction l with
  | nil => rfl
  | cons f rest ih =>
    by_cases h : p f
    · simp [List.filter_cons, h, ← ih]; omega
    · simp [List.filter_cons, h, ← ih, Nat.succ_add]

/-! Section: Lemmas for transcoding a transcoded archive

No rule of `mhFilters` contains the character `'/'`, and the root prefix
`"MHWILDS/"` is a list of characters ending in `'/'`.  Hence a rule that
occurs inside `"MHWILDS/" ++ p` occurs either inside `"MHWILDS"` (it does
not, checked by evaluation) or inside `p`. -/

theorem scanBeforeSep {r a b : List Char} {c : Char} (hc : c ∉ r)
    (h : r <+: a ++ c :: b) : r <+: a := by
  induction a generalizing r with
  | nil =>
    rcases List.prefix_cons_iff.mp h with rfl | ⟨t, rfl, _⟩
    · exact List.nil_prefix
    · exact absurd (List.mem_cons_self c t) hc
  | cons x a' ih =>
    rcases List.prefix_cons_iff.mp h with rfl | ⟨t, rfl, ht⟩
    · exact List.nil_prefix
    · have hct : c ∉ t := fun hm => hc (List.mem_cons_of_mem x hm)
      exact List.cons_prefix_cons.mpr ⟨rfl, ih hct ht⟩

theorem scanAcrossSep {r a b : List Char} {c : Char} (hc : c ∉ r)
    (h : r <:+: a ++ c :: b) : r <:+: a ∨ r <:+: b := by
  induction a generalizing r with
  | nil =>
    rcases List.infix_cons_iff.mp h with hp | hi
    · rcases List.prefix_cons_iff.mp hp with rfl | ⟨t, rfl, _⟩
      · exact Or.inl List.nil_infix
      · exact absurd (List.mem_cons_self c t) hc
    · exact Or.inr hi
  | cons x a' ih =>
    rcases List.infix_cons_iff.mp h with hp | hi
    · exact Or.inl (scanBeforeSep hc hp).isInfix
    · rcases ih hc hi with h' | h'
      · exact Or.inl (List.infix_cons h')
      · exact Or.inr h'

theorem matchesFilters_iff (filters : List String) (name : String) :
    matchesFilters filters name = true ↔ ∃ p ∈ filters, p.data <:+: name.data := by
  simp [matchesFilters, containsStr, List.any_eq_true, hasSubstr_iff_isInfix]

theorem mhFilters_facts :
    ∀ p ∈ mhFilters, '/' ∉ p.data ∧ hasSubstr p.data "MHWILDS".data = false := by
  decide

theorem mhRoot_data : mhRoot.data = "MHWILDS".data ++ '/' :: [] := by decide

theorem matchesFilters_mhRoot_append (p : String)
    (h : matchesFilters mhFilters p = false) :
    matchesFilters mhFilters (mhRoot ++ p) = false := by
  rw [← Bool.not_eq_true] at h ⊢
  intro hmatch
  rcases (matchesFilters_iff _ _).mp hmatch with ⟨r, hr, hinf⟩
  rw [String.data_append, mhRoot_data, List.append_assoc] at hinf
  rcases scanAcrossSep (mhFilters_facts r hr).1 hinf with h' | h'
  · rw [← hasSubstr_iff_isInfix] at h'
    exact absurd h' (by simp [(mhFilters_facts r hr).2])
  · exact h ((matchesFilters_iff _ _).mpr ⟨r, hr, h'⟩)

theorem transcodeEntries_of_all_clean (rootPrefix : String)
    (filters : List String) (l : List Entry)
    (h : ∀ e ∈ l, matchesFilters filters e.name = false) :
    transcodeEntries rootPrefix filters l = l.map (rewriteEntry rootPrefix) := by
  induction l with
  | nil => rfl
  | cons f rest ih =>
    have hf : matchesFilters filters f.name = false :=
      h f (List.mem_cons_self f rest)
    simp [transcodeEntries, hf,
      ih (fun e he => h e (List.mem_cons_of_mem f he))]

/-- Every entry path in the transcode output (under the program's fixed
root prefix and rule set) is still clean of every rule. -/
theorem transcode_output_clean (src : List Entry) :
    ∀ e ∈ transcodeZip mhRoot mhFilters src,
      matchesFilters mhFilters e.name = false := by
  intro e he
  rcases List.mem_cons.mp he with rfl | he'
  · decide
  · rw [transcodeEntries_eq_filter_map] at he'
    rcases List.mem_map.mp he' with ⟨f, hf, rfl⟩
    have hclean : matchesFilters mhFilters f.name = false := by
      have := (List.mem_filter.mp hf).2
      simpa using this
    exact matchesFilters_mhRoot_append f.name hclean

/-! Section: The progress-instrumented transcoder

The GUI build's `transcodeZip` counts `processedFiles` and invokes
`onProgress(float64(processedFiles) / float64(totalFiles))` at the top of
the loop body, before the skip test, so every entry (skipped or not)
produces one callback.  We record the sequence of reported values; the
IEEE ratio is modelled as the exact rational ratio. -/

def transcodeLoopProg (rootPrefix : String) (filters : List String)
    (total : Nat) : List Entry → Nat → List Entry × List ℚ
  | [], _ => ([], [])
  | f :: rest, processed =>
    let ev : ℚ := ((processed + 1 : Nat) : ℚ) / (total : ℚ)
    let r := transcodeLoopProg rootPrefix filters total rest (processed + 1)
    if matchesFilters filters f.name then (r.1, ev :: r.2)
    else (rewriteEntry rootPrefix f :: r.1, ev :: r.2)

/-- The function `transcodeZip` with its progress callback trace: the output entry list
together with the list of ratios passed to `onProgress`, in order. -/
def transcodeZipProg (rootPrefix : String) (filters : List String)
    (src : List Entry) : List Entry × List ℚ :=
  let r := transcodeLoopProg rootPrefix filters src.length src 0
  (rootDirEntry rootPrefix :: r.1, r.2)

theorem transcodeLoopProg_fst (rootPrefix : String) (filters : List String)
    (total : Nat) (l : List Entry) (processed : Nat) :
    (transcodeLoopProg rootPrefix filters total l processed).1
      = transcodeEntries rootPrefix filters l := by
  induction l generalizing processed with
  | nil => rfl
  | cons f rest ih =>
    by_cases h : matchesFilters filters f.name <;>
      simp [transcodeLoopProg, transcodeEntries, h, ih]

theorem transcodeLoopProg_snd (rootPrefix : String) (filters : List String)
    (total : Nat) (l : List Entry) (processed : Nat) :
    (transcodeLoopProg rootPrefix filters total l processed).2
      = (List.range l.length).map
          (fun (i : Nat) => ((processed : ℚ) + (i : ℚ) + 1) / (total : ℚ)) := by
  induction l generalizing processed with
  | nil => rfl
  | cons f rest ih =>
    have hev :
        (transcodeLoopProg rootPrefix filters total (f :: rest) processed).2
          = (((processed + 1 : Nat) : ℚ) / (total : ℚ))
              :: (transcodeLoopProg rootPrefix filters total rest
                    (processed + 1)).2 := by
      by_cases h : matchesFilters filters f.name <;>
        simp [transcodeLoopProg, h]
    rw [hev, ih]
    simp only [List.length_cons, List.range_succ_eq_map, List.map_cons,
      List.map_map]
    congr 1
    · push_cast; ring_nf
    · apply List.map_congr_left
      intro i _
      simp only [Function.comp]
      push_cast
      ring_nf

/-! Section: Claim theorems about the transcoder -/

/-- C1: for every source archive and filter rule set, the transcode output
is exactly the explicit root directory entry (written first) followed by,
in stored order, one entry per surviving source entry renamed to
`rootPrefix ++ originalPath`; an entry survives iff its stored path
contains no rule as a case-sensitive substring; hence the output has
`N - M + 1` entries when `M` of the `N` source entries match some rule. -/
theorem transcode_output_spec (rootPrefix : String) (filters : List String)
    (src : List Entry) :
    transcodeZip rootPrefix filters src
      = rootDirEntry rootPrefix ::
          (src.filter (fun f => !matchesFilters filters f.name)).map
            (rewriteEntry rootPrefix)
    ∧ (transcodeZip rootPrefix filters src).length
        = (src.length
            - (src.filter (fun f => matchesFilters filters f.name)).length) + 1
    ∧ ∀ name : String,
        matchesFilters filters name = true ↔ ∃ p ∈ filters, p.data <:+: name.data := by
  refine ⟨?_, ?_, matchesFilters_iff filters⟩
  · simp [transcodeZip, transcodeEntries_eq_filter_map]
  · simp only [transcodeZip, List.length_cons,
      transcodeEntries_eq_filter_map, List.length_map]
    have := length_filter_not_add (fun f => matchesFilters filters f.name) src
    omega

/-- C2: transcoding is filter-idempotent.  In general a second transcode
(same rules, same root prefix) keeps exactly those first-pass output
entries whose (already prefixed) path contains no rule; and for the
program's fixed rule set and root prefix `"MHWILDS/"` no entry of a first
transcode's output matches any rule, so the second transcode preserves the
entire surviving entry list, each path further prefixed. -/
theorem transcode_filter_idempotent (src : List Entry) :
    (∀ (rootPrefix : String) (filters : List String) (s : List Entry),
        transcodeZip rootPrefix filters (transcodeZip rootPrefix filters s)
          = rootDirEntry rootPrefix ::
              ((transcodeZip rootPrefix filters s).filter
                  (fun f => !matchesFilters filters f.name)).map
                (rewriteEntry rootPrefix))
    ∧ transcodeZip mhRoot mhFilters (transcodeZip mhRoot mhFilters src)
        = rootDirEntry mhRoot ::
            (transcodeZip mhRoot mhFilters src).map (rewriteEntry mhRoot) := by
  constructor
  · intro rootPrefix filters s
    simp [transcodeZip, transcodeEntries_eq_filter_map]
  · show rootDirEntry mhRoot :: transcodeEntries mhRoot mhFilters _ = _
    rw [transcodeEntries_of_all_clean mhRoot mhFilters _
      (transcode_output_clean src)]

/-- C9: transcoding an empty source archive succeeds with the root
directory entry as the only output entry, and the progress callback is
never invoked (the reported-value trace is empty). -/
theorem transcode_empty_archive (rootPrefix : String) (filters : List String) :
    transcodeZip rootPrefix filters [] = [rootDirEntry rootPrefix]
    ∧ transcodeZipProg rootPrefix filters []
        = ([rootDirEntry rootPrefix], []) :=
  ⟨rfl, rfl⟩

/-- C6: during one transcode job the values passed to the progress
callback are, in order, `(i+1)/N` for the `i`-th considered entry (skipped
entries included), hence non-decreasing, and the final reported value is
exactly `1` whenever the source archive is nonempty. -/
theorem transcode_progress_spec (rootPrefix : String) (filters : List String)
    (src : List Entry) :
    (transcodeZipProg rootPrefix filters src).2
      = (List.range src.length).map
          (fun (i : Nat) => ((i : ℚ) + 1) / (src.length : ℚ))
    ∧ (transcodeZipProg rootPrefix filters src).2.Sorted (· ≤ ·)
    ∧ (src ≠ [] →
        (transcodeZipProg rootPrefix filters src).2.getLast? = some 1) := by
  have hev : (transcodeZipProg rootPrefix filters src).2
      = (List.range src.length).map
          (fun (i : Nat) => ((i : ℚ) + 1) / (src.length : ℚ)) := by
    simp only [transcodeZipProg, transcodeLoopProg_snd]
    exact List.map_congr_left (fun i _ => by push_cast; ring_nf)
  refine ⟨hev, ?_, ?_⟩
  · rw [hev]
    refine List.Pairwise.map _ ?_ (List.pairwise_lt_range src.length)
    intro i j hij
    by_cases hn : (src.length : ℚ) = 0
    · simp [hn]
    · have hpos : (0 : ℚ) < (src.length : ℚ) :=
        lt_of_le_of_ne (Nat.cast_nonneg _) (Ne.symm hn)
      have : ((i : ℚ)) + 1 ≤ (j : ℚ) + 1 := by
        have : (i : ℚ) ≤ (j : ℚ) := by exact_mod_cast Nat.le_of_lt hij
        linarith
      exact (div_le_div_iff_of_pos_right hpos).mpr this
  · intro hne
    obtain ⟨m, hm⟩ : ∃ m, src.length = m + 1 :=
      Nat.exists_eq_succ_of_ne_zero (fun h0 => hne (List.length_eq_zero.mp h0))
    rw [hev, hm, List.range_succ, List.map_append, List.map_cons,
      List.map_nil, List.getLast?_concat]
    congr 1
    rw [div_eq_one_iff_eq]
    · push_cast; ring
    · push_cast
      positivity

/-- A concrete two-entry source archive, one entry of which matches the
filter rule `"vr"`. -/
def demoSrc : List Entry :=
  [⟨"README.txt", 3, 8, [1]⟩, ⟨"vr_runtime.dll", 4, 8, [2]⟩]

/-- Witness for C6: on the concrete two-entry archive (whose second entry
is skipped by the filter) the final reported progress value is exactly 1. -/
theorem transcode_progress_spec_witness :
    (transcodeZipProg "OUT/" ["vr"] demoSrc).2.getLast? = some 1 :=
  (transcode_progress_spec "OUT/" ["vr"] demoSrc).2.2 (by decide)

/-! Section: The version resolver

The resolution block of `main`: every release whose tag matches the
anchored pattern `^nightly-(\d\x7b4,\x7d)-([A-Za-z0-9]+)$` (and, when
`DEV_PREFIX` is set, whose numeric group starts with that prefix) is
entered into `numMap`, keyed by the numeric group, keeping the release
with the strictly later `publishedAt` (ties keep the incumbent).  The
map's entries are then sorted by `publishedAt` descending with
`sort.Slice`. -/

structure Release where
  tagName : String
  publishedAt : Int
  deriving DecidableEq

/-- The anchored tag regex `^nightly-(\d\x7b4,\x7d)-([A-Za-z0-9]+)$`,
returning the two captured groups.  The digit group is maximal
(`\d\x7b4,\x7d` is greedy, and backtracking cannot help since the
following character must be the non-digit `'-'`), so the scan below is
exactly the regex's unique match. -/
def parseTag (tag : String) : Option (String × String) :=
  if "nightly-".data.isPrefixOf tag.data then
    match (tag.data.drop 8).dropWhile Char.isDigit with
    | '-' :: build =>
      if 4 ≤ ((tag.data.drop 8).takeWhile Char.isDigit).length
          ∧ build ≠ [] ∧ build.all Char.isAlphanum then
        some (((tag.data.drop 8).takeWhile Char.isDigit).asString,
          build.asString)
      else none
    | _ => none
  else none

/-- The key a release is entered under in `numMap`, if any: its numeric
group, provided its tag parses and the numeric group passes the
`DEV_PREFIX` filter (`if devPrefix != "" && !strings.HasPrefix(num,
devPrefix) \x7b continue \x7d`). -/
def keyOf (devPrefix : String) (r : Release) : Option String :=
  match parseTag r.tagName with
  | none => none
  | some (num, _) =>
    if devPrefix ≠ "" ∧ strHasPrefix num devPrefix = false then none
    else some num

/-- The `numMap` update for one release: `cur, ok := numMap[num]; if !ok
|| r.PublishedAt.After(cur.PublishedAt) \x7b numMap[num] = r \x7d`,
on an association-list model of the Go map. -/
def updateKey : List (String × Release) → String → Release →
    List (String × Release)
  | [], num, r => [(num, r)]
  | (k, v) :: rest, num, r =>
    if k = num then
      if v.publishedAt < r.publishedAt then (k, r) :: rest
      else (k, v) :: rest
    else (k, v) :: updateKey rest num r

/-- Association-list lookup, modelling `numMap[num]`. -/
def lookupRel : List (String × Release) → String → Option Release
  | [], _ => none
  | (k, v) :: rest, num => if k = num then some v else lookupRel rest num

/-- One iteration of the release loop. -/
def stepRel (devPrefix : String) (m : List (String × Release))
    (r : Release) : List (String × Release) :=
  match keyOf devPrefix r with
  | none => m
  | some num => updateKey m num r

/-- The fully built `numMap` (entries in first-insertion order; the Go
map's iteration order is unspecified, which theorems model by quantifying
over permutations of these entries). -/
def buildNumMap (devPrefix : String) (rs : List Release) :
    List (String × Release) :=
  rs.foldl (stepRel devPrefix) []

/-- The `sort.Slice` comparator's weak closure: `items[i]` may precede
`items[j]` iff `¬ items[j].Rel.PublishedAt.After(items[i].Rel.PublishedAt)`. -/
def pubGE (a b : String × Release) : Prop :=
  b.2.publishedAt ≤ a.2.publishedAt

instance : DecidableRel pubGE :=
  fun _ _ => inferInstanceAs (Decidable (_ ≤ _))

instance : IsTotal (String × Release) pubGE :=
  ⟨fun a b => le_total b.2.publishedAt a.2.publishedAt⟩

instance : IsTrans (String × Release) pubGE :=
  ⟨fun _ _ _ h h' => le_trans h' h⟩

/-- What `sort.Slice` guarantees about its result: a permutation of the
input that is pairwise ordered under the comparator's weak closure (the
sort is not stable, so nothing more is guaranteed). -/
def goSortSpec (input output : List (String × Release)) : Prop :=
  output.Perm input ∧ output.Sorted pubGE

/-- The resolver: build `numMap`, sort its entries by `publishedAt`
descending.  Insertion sort realises one admissible `sort.Slice` outcome. -/
def resolve (devPrefix : String) (rs : List Release) :
    List (String × Release) :=
  List.insertionSort pubGE (buildNumMap devPrefix rs)

/-- The declarative reading of the spec's tag pattern
`nightly-<digits,4+>-<alnum>`, anchored at both ends. -/
def NightlyTagPattern (tag : String) : Prop :=
  ∃ num build : List Char,
    tag.data = "nightly-".data ++ num ++ '-' :: build
    ∧ num.all Char.isDigit ∧ 4 ≤ num.length
    ∧ build ≠ [] ∧ build.all Char.isAlphanum

/-- The spec's worked example: three releases, two sharing numeric version
`1050`; resolution keeps the later `1050` and sorts newest first. -/
example :
    (resolve ""
      [⟨"nightly-1050-abc123", 2⟩, ⟨"nightly-1050-def456", 3⟩,
       ⟨"nightly-1049-xyz000", 1⟩]).map
        (fun it => (it.1, it.2.tagName))
    = [("1050", "nightly-1050-def456"), ("1049", "nightly-1049-xyz000")] := by
  decide

/-! Section: Tags entering the map match the pattern -/

theorem parseTag_some_pattern {tag : String} {num build : String}
    (h : parseTag tag = some (num, build)) : NightlyTagPattern tag := by
  unfold parseTag at h
  split at h
  case isFalse => exact absurd h (by simp)
  case isTrue hpre =>
    obtain ⟨t, ht⟩ := List.isPrefixOf_iff_prefix.mp hpre
    split at h
    case h_2 => exact absurd h (by simp)
    case h_1 build' heq =>
      split at h
      case isFalse => exact absurd h (by simp)
      case isTrue hcond =>
        refine ⟨(tag.data.drop 8).takeWhile Char.isDigit, build', ?_, ?_,
          hcond.1, hcond.2.1, hcond.2.2⟩
        · have hdrop : tag.data.drop 8 = t := by
            rw [← ht]; exact List.drop_left' (by decide)
          calc tag.data = "nightly-".data ++ t := ht.symm
            _ = "nightly-".data
                  ++ ((tag.data.drop 8).takeWhile Char.isDigit
                      ++ (tag.data.drop 8).dropWhile Char.isDigit) := by
                rw [List.takeWhile_append_dropWhile, hdrop]
            _ = _ := by rw [heq, List.append_assoc]
        · exact List.all_takeWhile

theorem keyOf_some_parse {devPrefix num : String} {r : Release}
    (h : keyOf devPrefix r = some num) :
    ∃ build, parseTag r.tagName = some (num, build) := by
  unfold keyOf at h
  split at h
  case h_1 => exact absurd h (by simp)
  case h_2 num' build heq =>
    split at h
    case isTrue => exact absurd h (by simp)
    case isFalse =>
      exact ⟨build, by rw [heq, Option.some_inj.mp h]⟩

theorem mem_updateKey {m : List (String × Release)} {num : String}
    {r : Release} {p : String × Release} (h : p ∈ updateKey m num r) :
    p ∈ m ∨ p = (num, r) := by
  induction m with
  | nil => simpa [updateKey] using h
  | cons kv rest ih =>
    obtain ⟨k, v⟩ := kv
    by_cases hk : k = num
    · by_cases hlt : v.publishedAt < r.publishedAt
      · simp only [updateKey, if_pos hk, if_pos hlt] at h
        rcases List.mem_cons.mp h with rfl | h'
        · exact Or.inr (by rw [hk])
        · exact Or.inl (List.mem_cons_of_mem _ h')
      · simp only [updateKey, if_pos hk, if_neg hlt] at h
        exact Or.inl h
    · simp only [updateKey, if_neg hk] at h
      rcases List.mem_cons.mp h with rfl | h'
      · exact Or.inl (List.mem_cons_self _ _)
      · rcases ih h' with h'' | h''
        · exact Or.inl (List.mem_cons_of_mem _ h'')
        · exact Or.inr h''

theorem mem_foldl_stepRel {devPrefix : String} {rs : List Release}
    {m : List (String × Release)} {p : String × Release}
    (h : p ∈ rs.foldl (stepRel devPrefix) m) :
    p ∈ m ∨ (keyOf devPrefix p.2 = some p.1 ∧ p.2 ∈ rs) := by
  induction rs generalizing m with
  | nil => exact Or.inl h
  | cons r rest ih =>
    rcases ih h with h' | ⟨hkey, hmem⟩
    · unfold stepRel at h'
      split at h'
      case h_1 => exact Or.inl h'
      case h_2 num heq =>
        rcases mem_updateKey h' with h'' | rfl
        · exact Or.inl h''
        · exact Or.inr ⟨heq, List.mem_cons_self _ _⟩
    · exact Or.inr ⟨hkey, List.mem_cons_of_mem _ hmem⟩

/-- Every entry of the built map carries its release's own key, and its
release comes from the input list. -/
theorem mem_buildNumMap {devPrefix : String} {rs : List Release}
    {p : String × Release} (h : p ∈ buildNumMap devPrefix rs) :
    keyOf devPrefix p.2 = some p.1 ∧ p.2 ∈ rs := by
  rcases mem_foldl_stepRel h with h' | h'
  · exact absurd h' (List.not_mem_nil p)
  · exact h'

theorem mem_resolve_iff_mem_buildNumMap {devPrefix : String}
    {rs : List Release} {p : String × Release} :
    p ∈ resolve devPrefix rs ↔ p ∈ buildNumMap devPrefix rs :=
  (List.perm_insertionSort pubGE (buildNumMap devPrefix rs)).mem_iff

/-- C3: a release appears in the resolver's output only if its tag matches
the anchored pattern `nightly-<4+ digits>-<alnum>`; every release whose
tag fails the pattern is silently dropped and never appears in any
resolved list. -/
theorem resolve_tag_pattern (devPrefix : String) (rs : List Release)
    (num : String) (r : Release) (h : (num, r) ∈ resolve devPrefix rs) :
    NightlyTagPattern r.tagName := by
  have h' := mem_buildNumMap (mem_resolve_iff_mem_buildNumMap.mp h)
  obtain ⟨build, hb⟩ := keyOf_some_parse h'.1
  exact parseTag_some_pattern hb

/-- A concrete release list containing qualifying and non-qualifying
tags. -/
def demoReleases : List Release :=
  [⟨"nightly-1050-abc123", 2⟩, ⟨"nightly-1050-def456", 3⟩,
   ⟨"nightly-1049-xyz000", 1⟩, ⟨"v1.2.3", 9⟩]

/-- Witness for C3: the release `nightly-1050-def456` is in the resolved
list for `demoReleases`, so its tag matches the pattern. -/
theorem resolve_tag_pattern_witness :
    NightlyTagPattern "nightly-1050-def456" :=
  resolve_tag_pattern "" demoReleases "1050" ⟨"nightly-1050-def456", 3⟩
    (by decide)

/-! Section: Per-key content of the map: latest `publishedAt`, first on ties -/

/-- The per-key combine: an absent key is set, a present key is replaced
exactly when the new release is strictly later. -/
def mergeRel (o : Option Release) (r : Release) : Release :=
  match o with
  | none => r
  | some v => if v.publishedAt < r.publishedAt then r else v

/-- Run the per-key update over a list of releases starting from `v`. -/
def latestFrom (v : Release) (l : List Release) : Release :=
  l.foldl (fun best x =>
    if best.publishedAt < x.publishedAt then x else best) v

/-- The release kept for a key, given the (filtered) releases hashing to
it, in input order: the first release attaining the maximum
`publishedAt`. -/
def firstLatest : List Release → Option Release
  | [] => none
  | r :: l => some (latestFrom r l)

/-- Does release `r` qualify for key `num` under `devPrefix`? -/
def qualB (devPrefix num : String) (r : Release) : Bool :=
  keyOf devPrefix r == some num

theorem lookupRel_updateKey_self (m : List (String × Release))
    (num : String) (r : Release) :
    lookupRel (updateKey m num r) num
      = some (mergeRel (lookupRel m num) r) := by
  induction m with
  | nil => simp [updateKey, lookupRel, mergeRel]
  | cons kv rest ih =>
    obtain ⟨k, v⟩ := kv
    by_cases hk : k = num
    · by_cases hlt : v.publishedAt < r.publishedAt <;>
        simp [updateKey, lookupRel, hk, hlt, mergeRel]
    · simp [updateKey, lookupRel, hk, ih]

theorem lookupRel_updateKey_ne {num' num : String} (hne : num' ≠ num)
    (m : List (String × Release)) (r : Release) :
    lookupRel (updateKey m num' r) num = lookupRel m num := by
  induction m with
  | nil => simp [updateKey, lookupRel, hne]
  | cons kv rest ih =>
    obtain ⟨k, v⟩ := kv
    by_cases hk : k = num'
    · by_cases hlt : v.publishedAt < r.publishedAt <;>
        simp [updateKey, lookupRel, hk, hlt, hne]
    · simp [updateKey, lookupRel, hk, ih]

theorem lookupRel_foldl (devPrefix num : String) (rs : List Release)
    (m : List (String × Release)) :
    lookupRel (rs.foldl (stepRel devPrefix) m) num
      = (rs.filter (qualB devPrefix num)).foldl
          (fun o r => some (mergeRel o r)) (lookupRel m num) := by
  induction rs generalizing m with
  | nil => rfl
  | cons r rest ih =>
    rw [List.foldl_cons, ih]
    by_cases hq : qualB devPrefix num r = true
    · have hkey : keyOf devPrefix r = some num := by
        simpa [qualB] using hq
      rw [List.filter_cons_of_pos hq, List.foldl_cons]
      have : lookupRel (stepRel devPrefix m r) num
          = some (mergeRel (lookupRel m num) r) := by
        rw [stepRel, hkey]
        exact lookupRel_updateKey_self m num r
      rw [this]
    · rw [List.filter_cons_of_neg hq]
      have : lookupRel (stepRel devPrefix m r) num = lookupRel m num := by
        unfold stepRel
        split
        case h_1 => rfl
        case h_2 num' heq =>
          have hne : num' ≠ num := by
            rintro rfl
            exact hq (by simp [qualB, heq])
          exact lookupRel_updateKey_ne hne m r
      rw [this]

theorem foldl_mergeRel_some (v : Release) (l : List Release) :
    l.foldl (fun o r => some (mergeRel o r)) (some v)
      = some (latestFrom v l) := by
  induction l generalizing v with
  | nil => rfl
  | cons x l ih =>
    rw [List.foldl_cons, latestFrom, List.foldl_cons]
    exact ih _

theorem lookupRel_buildNumMap (devPrefix num : String) (rs : List Release) :
    lookupRel (buildNumMap devPrefix rs) num
      = firstLatest (rs.filter (qualB devPrefix num)) := by
  rw [buildNumMap, lookupRel_foldl]
  show (rs.filter (qualB devPrefix num)).foldl _ none = _
  cases h : rs.filter (qualB devPrefix num) with
  | nil => rfl
  | cons a l =>
    rw [List.foldl_cons, firstLatest]
    exact foldl_mergeRel_some a l

/-- Characterisation of the running-best fold: it returns `r` iff either
`r` is the seed and nothing beats it, or `r` occurs in the list strictly
later than the seed and everything before it is strictly earlier while
everything after it is no later. -/
theorem latestFrom_eq_iff (v r : Release) (l : List Release) :
    latestFrom v l = r ↔
      (r = v ∧ ∀ x ∈ l, x.publishedAt ≤ v.publishedAt)
      ∨ ∃ l₁ l₂, l = l₁ ++ r :: l₂
          ∧ v.publishedAt < r.publishedAt
          ∧ (∀ x ∈ l₁, x.publishedAt < r.publishedAt)
          ∧ (∀ x ∈ l₂, x.publishedAt ≤ r.publishedAt) := by
  induction l generalizing v with
  | nil =>
    constructor
    · intro h
      exact Or.inl ⟨h.symm, fun x hx => absurd hx (List.not_mem_nil x)⟩
    · rintro (⟨rfl, _⟩ | ⟨l₁, l₂, heq, _, _, _⟩)
      · rfl
      · cases l₁ <;> simp at heq
  | cons x l ih =>
    have hstep : latestFrom v (x :: l)
        = latestFrom (if v.publishedAt < x.publishedAt then x else v) l :=
      rfl
    by_cases hvx : v.publishedAt < x.publishedAt
    · rw [hstep, if_pos hvx, ih]
      constructor
      · rintro (⟨rfl, hall⟩ | ⟨l₁, l₂, rfl, hv, h₁, h₂⟩)
        · exact Or.inr ⟨[], l, rfl, hvx, by simp, hall⟩
        · refine Or.inr ⟨x :: l₁, l₂, rfl, by omega, ?_, h₂⟩
          intro y hy
          rcases List.mem_cons.mp hy with rfl | hy'
          · omega
          · exact h₁ y hy'
      · rintro (⟨rfl, hall⟩ | ⟨l₁, l₂, heq, hv, h₁, h₂⟩)
        · exact absurd (hall x (List.mem_cons_self x l)) (by omega)
        · cases l₁ with
          | nil =>
            obtain ⟨rfl, rfl⟩ : x = r ∧ l = l₂ := by simpa using heq
            exact Or.inl ⟨rfl, h₂⟩
          | cons y l₁' =>
            obtain ⟨rfl, rfl⟩ : x = y ∧ l = l₁' ++ r :: l₂ := by
              simpa using heq
            refine Or.inr ⟨l₁', l₂, rfl,
              h₁ x (List.mem_cons_self x l₁'), ?_, h₂⟩
            intro z hz
            exact h₁ z (List.mem_cons_of_mem x hz)
    · rw [hstep, if_neg hvx, ih]
      constructor
      · rintro (⟨rfl, hall⟩ | ⟨l₁, l₂, rfl, hv, h₁, h₂⟩)
        · refine Or.inl ⟨rfl, ?_⟩
          intro y hy
          rcases List.mem_cons.mp hy with rfl | hy'
          · omega
          · exact hall y hy'
        · refine Or.inr ⟨x :: l₁, l₂, rfl, hv, ?_, h₂⟩
          intro y hy
          rcases List.mem_cons.mp hy with rfl | hy'
          · omega
          · exact h₁ y hy'
      · rintro (⟨rfl, hall⟩ | ⟨l₁, l₂, heq, hv, h₁, h₂⟩)
        · exact Or.inl ⟨rfl, fun y hy => hall y (List.mem_cons_of_mem x hy)⟩
        · cases l₁ with
          | nil =>
            obtain ⟨rfl, rfl⟩ : x = r ∧ l = l₂ := by simpa using heq
            exact absurd hv hvx
          | cons y l₁' =>
            obtain ⟨rfl, rfl⟩ : x = y ∧ l = l₁' ++ r :: l₂ := by
              simpa using heq
            refine Or.inr ⟨l₁', l₂, rfl, hv, ?_, h₂⟩
            intro z hz
            exact h₁ z (List.mem_cons_of_mem x hz)

/-- The kept release for a key is exactly the first maximal-`publishedAt`
release among those qualifying for the key, in input order. -/
theorem firstLatest_eq_some_iff (l : List Release) (r : Release) :
    firstLatest l = some r ↔
      ∃ l₁ l₂, l = l₁ ++ r :: l₂
        ∧ (∀ x ∈ l₁, x.publishedAt < r.publishedAt)
        ∧ (∀ x ∈ l₂, x.publishedAt ≤ r.publishedAt) := by
  cases l with
  | nil =>
    constructor
    · intro h; exact absurd h (by simp [firstLatest])
    · rintro ⟨l₁, l₂, heq, _, _⟩
      cases l₁ <;> simp at heq
  | cons a l =>
    show some (latestFrom a l) = some r ↔ _
    rw [Option.some_inj, latestFrom_eq_iff]
    constructor
    · rintro (⟨rfl, hall⟩ | ⟨l₁, l₂, rfl, hv, h₁, h₂⟩)
      · exact ⟨[], l, rfl, by simp, hall⟩
      · refine ⟨a :: l₁, l₂, rfl, ?_, h₂⟩
        intro y hy
        rcases List.mem_cons.mp hy with rfl | hy'
        · exact hv
        · exact h₁ y hy'
    · rintro ⟨l₁, l₂, heq, h₁, h₂⟩
      cases l₁ with
      | nil =>
        obtain ⟨rfl, rfl⟩ : a = r ∧ l = l₂ := by simpa using heq
        exact Or.inl ⟨rfl, h₂⟩
      | cons y l₁' =>
        obtain ⟨rfl, rfl⟩ : a = y ∧ l = l₁' ++ r :: l₂ := by
          simpa using heq
        refine Or.inr ⟨l₁', l₂, rfl, h₁ a (List.mem_cons_self a l₁'), ?_, h₂⟩
        intro z hz
        exact h₁ z (List.mem_cons_of_mem a hz)

/-! Section: The map's keys are duplicate-free -/

def keys (m : List (String × Release)) : List String := m.map Prod.fst

theorem keys_updateKey_mem {m : List (String × Release)} {num : String}
    (r : Release) (h : num ∈ keys m) :
    keys (updateKey m num r) = keys m := by
  induction m with
  | nil => simp [keys] at h
  | cons kv rest ih =>
    obtain ⟨k, v⟩ := kv
    by_cases hk : k = num
    · by_cases hlt : v.publishedAt < r.publishedAt <;>
        simp [updateKey, hk, hlt, keys]
    · have h' : num ∈ keys rest := by
        rcases List.mem_cons.mp h with heq | h'
        · exact absurd heq.symm hk
        · exact h'
      have hstep : updateKey ((k, v) :: rest) num r
          = (k, v) :: updateKey rest num r := by
        simp [updateKey, hk]
      rw [hstep]
      show k :: keys (updateKey rest num r) = k :: keys rest
      rw [ih h']

theorem keys_updateKey_not_mem {m : List (String × Release)} {num : String}
    (r : Release) (h : num ∉ keys m) :
    keys (updateKey m num r) = keys m ++ [num] := by
  induction m with
  | nil => rfl
  | cons kv rest ih =>
    obtain ⟨k, v⟩ := kv
    have hk : k ≠ num := by
      rintro rfl
      exact h (List.mem_cons_self _ _)
    have h' : num ∉ keys rest := fun hm => h (List.mem_cons_of_mem _ hm)
    have hstep : updateKey ((k, v) :: rest) num r
        = (k, v) :: updateKey rest num r := by
      simp [updateKey, hk]
    rw [hstep]
    show k :: keys (updateKey rest num r) = (k :: keys rest) ++ [num]
    rw [ih h', List.cons_append]

theorem nodup_keys_updateKey {m : List (String × Release)} {num : String}
    (r : Release) (h : (keys m).Nodup) :
    (keys (updateKey m num r)).Nodup := by
  by_cases hm : num ∈ keys m
  · rw [keys_updateKey_mem r hm]; exact h
  · rw [keys_updateKey_not_mem r hm]
    simp [List.nodup_append, h, hm]

theorem nodup_keys_foldl {devPrefix : String} (rs : List Release)
    {m : List (String × Release)} (h : (keys m).Nodup) :
    (keys (rs.foldl (stepRel devPrefix) m)).Nodup := by
  induction rs generalizing m with
  | nil => exact h
  | cons r rest ih =>
    rw [List.foldl_cons]
    refine ih ?_
    unfold stepRel
    split
    · exact h
    · exact nodup_keys_updateKey r h

theorem nodup_keys_buildNumMap (devPrefix : String) (rs : List Release) :
    (keys (buildNumMap devPrefix rs)).Nodup :=
  nodup_keys_foldl rs (by simp [keys])

theorem mem_iff_lookupRel {m : List (String × Release)}
    (hnd : (keys m).Nodup) (num : String) (r : Release) :
    (num, r) ∈ m ↔ lookupRel m num = some r := by
  induction m with
  | nil => simp [lookupRel]
  | cons kv rest ih =>
    obtain ⟨k, v⟩ := kv
    have hpair := List.nodup_cons.mp hnd
    by_cases hk : k = num
    · subst hk
      constructor
      · intro hmem
        rcases List.mem_cons.mp hmem with heq | hmem'
        · have hrv : r = v := congrArg Prod.snd heq
          show lookupRel ((k, v) :: rest) k = some r
          simp [lookupRel, hrv]
        · exact absurd (List.mem_map_of_mem Prod.fst hmem') hpair.1
      · intro hlook
        have hv : v = r := by simpa [lookupRel] using hlook
        subst hv
        exact List.mem_cons_self _ _
    · constructor
      · intro hmem
        rcases List.mem_cons.mp hmem with heq | hmem'
        · exact absurd (congrArg Prod.fst heq).symm hk
        · show lookupRel ((k, v) :: rest) num = some r
          simp only [lookupRel, if_neg hk]
          exact (ih hpair.2).mp hmem'
      · intro hlook
        have hrest : lookupRel rest num = some r := by
          simpa [lookupRel, hk] using hlook
        exact List.mem_cons_of_mem _ ((ih hpair.2).mpr hrest)

/-- C4: for every release list and numeric version, `(num, r)` is in the
resolver's output exactly when the releases qualifying for `num`
decompose around `r` with all earlier ones strictly older and all later
ones no newer than `r` — i.e. the output keeps exactly the first
qualifying release attaining the maximum `publishedAt`, first-encountered
on ties. -/
theorem resolve_dedup_spec (devPrefix : String) (rs : List Release)
    (num : String) (r : Release) :
    (num, r) ∈ resolve devPrefix rs ↔
      ∃ l₁ l₂, rs.filter (qualB devPrefix num) = l₁ ++ r :: l₂
        ∧ (∀ x ∈ l₁, x.publishedAt < r.publishedAt)
        ∧ (∀ x ∈ l₂, x.publishedAt ≤ r.publishedAt) := by
  rw [mem_resolve_iff_mem_buildNumMap,
    mem_iff_lookupRel (nodup_keys_buildNumMap devPrefix rs),
    lookupRel_buildNumMap, firstLatest_eq_some_iff]

/-- C5: the resolved list is sorted by `publishedAt` descending: at every
adjacent pair of positions the earlier element's `publishedAt` is at least
the later element's. -/
theorem resolve_sorted_spec (devPrefix : String) (rs : List Release)
    (i : Nat) (h : i + 1 < (resolve devPrefix rs).length) :
    ((resolve devPrefix rs).get ⟨i + 1, h⟩).2.publishedAt
      ≤ ((resolve devPrefix rs).get
          ⟨i, Nat.lt_of_succ_lt h⟩).2.publishedAt := by
  have hs : (resolve devPrefix rs).Sorted pubGE :=
    List.sorted_insertionSort pubGE (buildNumMap devPrefix rs)
  exact hs.rel_get_of_lt (by simp [Fin.lt_def])

/-- Witness for C5: in the resolved demo list the entry at index 1 is no
newer than the entry at index 0. -/
theorem resolve_sorted_spec_witness :
    ((resolve "" demoReleases).get ⟨1, by decide⟩).2.publishedAt
      ≤ ((resolve "" demoReleases).get ⟨0, by decide⟩).2.publishedAt :=
  resolve_sorted_spec "" demoReleases 0 (by decide)

/-! Section: Determinism of resolution -/

/-- The resolver's insertion sort is one admissible `sort.Slice` outcome. -/
theorem resolve_goSortSpec (devPrefix : String) (rs : List Release) :
    goSortSpec (buildNumMap devPrefix rs) (resolve devPrefix rs) :=
  ⟨List.perm_insertionSort pubGE _, List.sorted_insertionSort pubGE _⟩

theorem nodup_buildNumMap (devPrefix : String) (rs : List Release) :
    (buildNumMap devPrefix rs).Nodup :=
  (nodup_keys_buildNumMap devPrefix rs).of_map

/-- When no two qualifying releases share a `publishedAt`, any
`sort.Slice` outcome on any iteration order of the map is sorted
strictly. -/
theorem sorted_strict_of_goSortSpec {devPrefix : String} {rs : List Release}
    (hinj : ∀ r₁ ∈ rs, ∀ r₂ ∈ rs, (keyOf devPrefix r₁).isSome →
      (keyOf devPrefix r₂).isSome →
      r₁.publishedAt = r₂.publishedAt → r₁ = r₂)
    {l o : List (String × Release)}
    (hl : l.Perm (buildNumMap devPrefix rs)) (hgo : goSortSpec l o) :
    o.Sorted (fun a b => b.2.publishedAt < a.2.publishedAt) := by
  have hperm : o.Perm (buildNumMap devPrefix rs) := hgo.1.trans hl
  have hnd : o.Nodup := (nodup_buildNumMap devPrefix rs).perm hperm.symm
  have hne : o.Pairwise
      (fun a b => a.2.publishedAt ≠ b.2.publishedAt) := by
    refine List.Pairwise.imp_of_mem ?_ hnd
    intro a b ha hb hab heq
    have ha' := mem_buildNumMap (hperm.subset ha)
    have hb' := mem_buildNumMap (hperm.subset hb)
    have hrel : a.2 = b.2 :=
      hinj a.2 ha'.2 b.2 hb'.2 (by simp [ha'.1]) (by simp [hb'.1]) heq
    have hkey : a.1 = b.1 := by
      have := ha'.1
      rw [hrel, hb'.1] at this
      exact (Option.some_inj.mp this).symm
    exact hab (Prod.ext hkey hrel)
  have hboth := hgo.2.and hne
  exact hboth.imp (fun h => lt_of_le_of_ne h.1 (Ne.symm h.2))

/-- C10: with no `publishedAt` tie among qualifying releases, resolution
is deterministic: any two runs — each iterating the grouping map in an
arbitrary order and sorting with the unstable `sort.Slice` — produce the
identical ordered list of (numeric version, release) pairs. -/
theorem resolve_deterministic (devPrefix : String) (rs : List Release)
    (hinj : ∀ r₁ ∈ rs, ∀ r₂ ∈ rs, (keyOf devPrefix r₁).isSome →
      (keyOf devPrefix r₂).isSome →
      r₁.publishedAt = r₂.publishedAt → r₁ = r₂)
    (l₁ l₂ o₁ o₂ : List (String × Release))
    (h₁ : l₁.Perm (buildNumMap devPrefix rs))
    (h₂ : l₂.Perm (buildNumMap devPrefix rs))
    (s₁ : goSortSpec l₁ o₁) (s₂ : goSortSpec l₂ o₂) : o₁ = o₂ := by
  have hperm : o₁.Perm o₂ :=
    (s₁.1.trans (h₁.trans h₂.symm)).trans s₂.1.symm
  have hs₁ := sorted_strict_of_goSortSpec hinj h₁ s₁
  have hs₂ := sorted_strict_of_goSortSpec hinj h₂ s₂
  haveI : IsAntisymm (String × Release)
      (fun a b => b.2.publishedAt < a.2.publishedAt) :=
    ⟨fun _ _ hab hba => (lt_asymm hab hba).elim⟩
  exact List.eq_of_perm_of_sorted hperm hs₁ hs₂

/-- Witness for C10: resolving the demo list equals insertion-sorting any
other iteration order of its grouping map, here the reversed one. -/
theorem resolve_deterministic_witness :
    resolve "" demoReleases
      = List.insertionSort pubGE (buildNumMap "" demoReleases).reverse :=
  resolve_deterministic "" demoReleases (by decide)
    (buildNumMap "" demoReleases) (buildNumMap "" demoReleases).reverse
    (resolve "" demoReleases)
    (List.insertionSort pubGE (buildNumMap "" demoReleases).reverse)
    (List.Perm.refl _) (List.reverse_perm _)
    (resolve_goSortSpec "" demoReleases)
    ⟨List.perm_insertionSort pubGE _, List.sorted_insertionSort pubGE _⟩

/-! Section: The release catalog fetcher

Two variants exist in the repository.  The strict CLI variants
(`buildREFrameworkWinCLI`, `buildREFramework.go`) fail hard when a
"not modified" response arrives with no readable cache; the other variants
(`buildREFrameworkWin`, the GUI build) leave the release list empty and
continue.  Both are embedded; the decoded cache body and response body are
the values the surrounding code consumes. -/

def statusOK : Nat := 200

def statusNotModified : Nat := 304

inductive FetchOutcome where
  | ok (releases : List Release) (fromCache : Bool)
  | cacheUnavailable
  | fetchFailed (status : Nat)
  deriving DecidableEq

/-- Strict fetch: `if resp.StatusCode == http.StatusNotModified` use the
cache or exit with an error if it cannot be opened; on 200 use the fresh
body; on anything else use the cache if present, else fail with the
status. -/
def fetchStrict (cache : Option (List Release)) (status : Nat)
    (body : List Release) : FetchOutcome :=
  if status = statusNotModified then
    match cache with
    | some b => .ok b true
    | none => .cacheUnavailable
  else if status = statusOK then .ok body false
  else
    match cache with
    | some b => .ok b true
    | none => .fetchFailed status

/-- Lenient fetch (`buildREFrameworkWin` / GUI): identical except that a
304 with an unreadable cache leaves `releases` empty and continues. -/
def fetchLenient (cache : Option (List Release)) (status : Nat)
    (body : List Release) : FetchOutcome :=
  if status = statusNotModified then
    match cache with
    | some b => .ok b true
    | none => .ok [] true
  else if status = statusOK then .ok body false
  else
    match cache with
    | some b => .ok b true
    | none => .fetchFailed status

/-- C7 counterexample: the `buildREFrameworkWin` fetch, on a
"not modified" response with no prior cache, does not fail with
`CacheUnavailable` — it proceeds with an empty release list. -/
theorem fetch_no_cache_counterexample :
    fetchLenient none statusNotModified [] = FetchOutcome.ok [] true
    ∧ fetchLenient none statusNotModified []
        ≠ FetchOutcome.cacheUnavailable := by
  decide

/-- C7 (amended): on "not modified" both fetch variants return the cached
body verbatim when a cache exists; with no prior cache the strict CLI
variant fails with `CacheUnavailable` while the `buildREFrameworkWin`
variant proceeds with an empty release list; on any status other than
success or "not modified", both return the cached body if one exists and
otherwise fail with `FetchFailed` carrying the status. -/
theorem fetch_cache_policy (cache : Option (List Release)) (status : Nat)
    (body : List Release) :
    (status = statusNotModified →
      (∀ b, cache = some b →
        fetchStrict cache status body = .ok b true
        ∧ fetchLenient cache status body = .ok b true)
      ∧ (cache = none →
        fetchStrict cache status body = .cacheUnavailable
        ∧ fetchLenient cache status body = .ok [] true))
    ∧ (status ≠ statusNotModified → status ≠ statusOK →
      (∀ b, cache = some b →
        fetchStrict cache status body = .ok b true
        ∧ fetchLenient cache status body = .ok b true)
      ∧ (cache = none →
        fetchStrict cache status body = .fetchFailed status
        ∧ fetchLenient cache status body = .fetchFailed status)) := by
  constructor
  · rintro rfl
    constructor
    · rintro b rfl
      constructor <;> simp [fetchStrict, fetchLenient]
    · rintro rfl
      constructor <;> simp [fetchStrict, fetchLenient]
  · rintro hnm hok
    constructor
    · rintro b rfl
      constructor <;> simp [fetchStrict, fetchLenient, hnm, hok]
    · rintro rfl
      constructor <;> simp [fetchStrict, fetchLenient, hnm, hok]

/-- Witness for the amended C7, at a 304 with no cache, a server error
with a cache, and a server error without one. -/
theorem fetch_cache_policy_witness :
    fetchStrict none statusNotModified [] = .cacheUnavailable
    ∧ fetchStrict (some demoReleases) 500 [] = .ok demoReleases true
    ∧ fetchStrict none 500 [] = .fetchFailed 500 :=
  ⟨(((fetch_cache_policy none statusNotModified []).1 rfl).2 rfl).1,
   ((((fetch_cache_policy (some demoReleases) 500 []).2 (by decide)
      (by decide)).1) demoReleases rfl).1,
   (((fetch_cache_policy none 500 []).2 (by decide) (by decide)).2 rfl).1⟩

/-! Section: Delivery (`atomicCopy` / `copyFile`)

The filesystem is modelled as a map from absolute paths to byte contents,
with an abstract path-resolution function `abs` standing for
`filepath.Abs`.  `none` is an I/O failure, `some fs` a success returning
the new filesystem state. -/

/-- The function `copyFile`: open the source (fail when absent), create/truncate the
destination, copy all bytes. -/
def copyFile (abs : String → String) (fs : String → Option (List Nat))
    (src dst : String) : Option (String → Option (List Nat)) :=
  match fs (abs src) with
  | none => none
  | some contents =>
    some (fun p => if p = abs dst then some contents else fs p)

/-- The function `atomicCopy`: compare resolved absolute paths; equal paths are a
no-op success (prevents self-truncation), otherwise delegate to
`copyFile`. -/
def atomicCopy (abs : String → String) (fs : String → Option (List Nat))
    (src dst : String) : Option (String → Option (List Nat)) :=
  if abs src = abs dst then some fs else copyFile abs fs src dst

/-- C8: when source and destination resolve to the same absolute path,
delivery returns success with the filesystem (in particular the file at
that path) byte-for-byte unchanged; when they differ and the source
exists, it performs the full byte copy, overwriting the destination and
touching no other path. -/
theorem atomicCopy_spec (abs : String → String)
    (fs : String → Option (List Nat)) (src dst : String) :
    (abs src = abs dst → atomicCopy abs fs src dst = some fs)
    ∧ (abs src ≠ abs dst → ∀ contents, fs (abs src) = some contents →
        ∃ fs', atomicCopy abs fs src dst = some fs'
          ∧ fs' (abs dst) = some contents
          ∧ ∀ p, p ≠ abs dst → fs' p = fs p) := by
  constructor
  · intro h
    simp [atomicCopy, h]
  · intro h contents hsrc
    refine ⟨fun p => if p = abs dst then some contents else fs p, ?_, ?_, ?_⟩
    · simp [atomicCopy, h, copyFile, hsrc]
    · simp
    · intro p hp
      simp [hp]

/-- Witness for C8: delivering `/tmp/a.zip` onto itself succeeds and
leaves the filesystem untouched. -/
theorem atomicCopy_spec_witness :
    atomicCopy id (fun _ => some [7]) "/tmp/a.zip" "/tmp/a.zip"
      = some (fun _ => some [7]) :=
  (atomicCopy_spec id (fun _ => some [7]) "/tmp/a.zip" "/tmp/a.zip").1 rfl

end REFramework
